import Mathlib

/-!
Verification development for the coordinate core of the `dascore`/`fios`
repository.  Coordinate values (floats, ints, datetimes cast to integer
nanoseconds) are modelled by an arbitrary linearly ordered additive group
`α` (instantiated at `ℤ` or `ℚ` in concrete statements), arrays as
`List α`, and Python functions that can raise as `Except String`-valued
functions.  Each definition is a shallow embedding of the function of the
same name in the source; where the deciding source file is absent from the
snapshot the definition is modelled from the specification and marked
`Modelled from the spec:` in its doc comment.
-/

deriving instance DecidableEq for Except

variable {α : Type} [LinearOrderedAddCommGroup α]

/-- Result of Python `slice(start, stop)` as produced by
`dascore.utils.misc.get_slice_from_monotonic`: both components are either
`None` or a non-negative index. -/
structure NpSlice where
  start : Option Nat
  stop : Option Nat
deriving Repr, DecidableEq

/-- Positions of an array of length `n` selected by `arr[s]` for a slice `s`
with non-negative components: indices `i` with `(start or 0) <= i < min (stop or n) n`. -/
def NpSlice.selects (s : NpSlice) (n i : Nat) : Prop :=
  s.start.getD 0 ≤ i ∧ i < min (s.stop.getD n) n

instance (s : NpSlice) (n i : Nat) : Decidable (s.selects n i) := by
  unfold NpSlice.selects; infer_instance

/-- Core loop of NumPy `searchsorted` (C `binary_search_with_guess` without
the guess): binary search returning the first index at which `p` fails,
assuming `p` holds on a prefix of the sorted array.  `fuel` bounds the
iteration count; callers pass at least `hi - lo`, which always suffices. -/
def bsearchAux (p : α → Bool) (v : List α) : Nat → Nat → Nat → Nat
  | 0, lo, _ => lo
  | fuel + 1, lo, hi =>
    if lo < hi then
      let mid := (lo + hi) / 2
      if p (v.getD mid 0) then bsearchAux p v fuel (mid + 1) hi
      else bsearchAux p v fuel lo mid
    else lo

/-- Binary search over the whole array, as NumPy `searchsorted` does. -/
def bsearch (p : α → Bool) (v : List α) : Nat :=
  bsearchAux p v v.length 0 v.length

/-- NumPy `searchsorted(v, x, side="left")`: binary search moving right while
`v[mid] < x`. -/
def bisectLeft (v : List α) (x : α) : Nat :=
  bsearch (fun a => decide (a < x)) v

/-- NumPy `searchsorted(v, x, side="right")`: binary search moving right while
`v[mid] <= x`. -/
def bisectRight (v : List α) (x : α) : Nat :=
  bsearch (fun a => decide (a ≤ x)) v

/-- NumPy `diff(v)`: consecutive differences `v[i+1] - v[i]`. -/
def npDiff (v : List α) : List α :=
  List.zipWith (fun a b => a - b) v.tail v

/-- Minimum of the nonempty list `x :: xs`. -/
def listMin (x : α) (xs : List α) : α :=
  xs.foldl (fun a b => if a ≤ b then a else b) x

/-- NumPy `argmin(l)`: index of the first occurrence of the minimum value
(the guard in the caller ensures `l` is nonempty). -/
def argminIdx : List α → Nat
  | [] => 0
  | [_] => 0
  | x :: y :: rest => if x ≤ listMin y rest then 0 else argminIdx (y :: rest) + 1

/-- The `start` component computed by `get_slice_from_monotonic`:
`searchsorted(array, cond[0], side="left")` when `cond[0]` is not null,
normalized to `None` when it is `0`. -/
def normStart (v : List α) (c0 : Option α) : Option Nat :=
  match c0 with
  | none => none
  | some lo => if bisectLeft v lo = 0 then none else some (bisectLeft v lo)

/-- The `stop` component computed by `get_slice_from_monotonic`:
`searchsorted(array, cond[1], side="right")` when `cond[1]` is not null,
normalized to `None` when it equals `len(array)`. -/
def normStop (v : List α) (c1 : Option α) : Option Nat :=
  match c1 with
  | none => none
  | some hi => if bisectRight v hi = v.length then none else some (bisectRight v hi)

/-- Body of `get_slice_from_monotonic` after the `cond is None` and arity
checks, embedding `src/dascore/utils/misc.py` lines 124-136.  `c0`, `c1` are
the two entries of `cond` (`none` models a null bound, mirroring
`pd.isnull`).  Python exceptions become `Except.error`: indexing `array[-1]`
on an empty array raises `IndexError`, and `np.argmin` of an empty
difference array raises `ValueError`.  The recursive call
`get_slice_from_monotonic(array[:increasing_segment_end], cond)` runs on a
strictly shorter list, so `fuel := length + 1` in the wrapper suffices. -/
def getSliceAux (v : List α) (c0 c1 : Option α) : Nat → Except String NpSlice
  | 0 => .error "fuel exhausted"
  | fuel + 1 =>
    let start : Option Nat := normStart v c0
    let stop : Option Nat := normStop v c1
    if v.length = 0 then .error "IndexError"
    else if v.getD (v.length - 1) 0 ≤ v.getD 0 0 then
      let d := npDiff v
      if d.length = 0 then .error "ValueError: argmin of an empty sequence"
      else
        let e := argminIdx d
        match getSliceAux (v.take e) c0 c1 fuel with
        | .error msg => .error msg
        | .ok out =>
          let stopPy : Nat :=
            match out.stop with
            | none => v.length
            | some s => if s = 0 then v.length else s
          .ok ⟨start, some (min stopPy e)⟩
    else .ok ⟨start, stop⟩

/-- Embedding of `get_slice_from_monotonic(array, cond)` from
`src/dascore/utils/misc.py`.  `cond = none` models `cond is None`; a
`some` condition carries the tuple entries, each `none` when null.  A tuple
whose length is not 2 fails the `assert len(cond) == 2` check
(`AssertionError`). -/
def get_slice_from_monotonic (v : List α) (cond : Option (List (Option α))) :
    Except String NpSlice :=
  match cond with
  | none => .ok ⟨none, none⟩
  | some c =>
    if c.length = 2 then getSliceAux v (c.getD 0 none) (c.getD 1 none) (v.length + 1)
    else .error "AssertionError: you must pass a length 2 tuple to get_slice."

/-- Insertion step of an ascending sort; `np.sort` is modelled by repeated
insertion (the source only relies on the sorted result, not the algorithm). -/
def insertSorted (x : α) : List α → List α
  | [] => [x]
  | y :: ys => if x ≤ y then x :: y :: ys else y :: insertSorted x ys

/-- NumPy `sort(l)`: the ascending rearrangement of `l`. -/
def npSort (l : List α) : List α :=
  l.foldr insertSorted []

/-- Embedding of `get_middle_value(array)` from `src/dascore/utils/misc.py`:
sort, then return the element at index `floor((len - 1) / 2)`. -/
def get_middle_value (l : List α) : α :=
  (npSort l).getD ((l.length - 1) / 2) 0

/-- NumPy `median(l)` for a nonempty list: middle element of the sorted values
for odd length, mean of the two central elements for even length.  (NumPy
returns NaN with a warning on an empty array; the only caller embedded here
guards the empty case first.) -/
def npMedian (l : List ℚ) : ℚ :=
  if l.length % 2 = 1 then (npSort l).getD (l.length / 2) 0
  else ((npSort l).getD (l.length / 2 - 1) 0 + (npSort l).getD (l.length / 2) 0) / 2

/-- NumPy `isclose(a, b)` at `rtol = 0.001` and NumPy's default absolute
tolerance `atol = 1e-8`: `|a - b| <= atol + rtol * |b|`. -/
def npIsClose (a b : ℚ) : Bool :=
  decide (|a - b| ≤ 1 / 100000000 + (1 / 1000) * |b|)

/-- NumPy `allclose(l, b, rtol=0.001)` for a scalar comparand `b`. -/
def npAllClose (l : List ℚ) (b : ℚ) : Bool :=
  l.all (fun a => npIsClose a b)

/-- Embedding of `all_diffs_close_enough(diffs)` from
`src/dascore/utils/misc.py`: empty input is rejected, otherwise every
difference must be `np.allclose` to the median at `rtol = 0.001`. -/
def all_diffs_close_enough (diffs : List ℚ) : Bool :=
  if diffs.length = 0 then false else npAllClose diffs (npMedian diffs)

/-- The datetime/duration path of `all_diffs_close_enough`: differences are
cast to integer nanoseconds (`astype(int64)`), then to floats (exact for the
magnitudes involved, so modelled by the cast `ℤ → ℚ`), then checked. -/
def all_diffs_close_enough_td (diffs : List ℤ) : Bool :=
  all_diffs_close_enough (diffs.map (fun i => (i : ℚ)))

/-- Python exception kinds relevant to the selection argument checks;
`ParameterError` is `dascore.exceptions.ParameterError`. -/
inductive PyError where
  | parameterError
deriving Repr, DecidableEq

/-- Argument passed to a coordinate `select`: a tuple of entries (each
possibly null), or a slice-like input carrying optional start/stop/step. -/
inductive SelectArg (β : Type) where
  | tup : List (Option β) → SelectArg β
  | sli : Option β → Option β → Option β → SelectArg β

/-- Modelled from the spec: `BaseCoord.get_slice_tuple` (the coordinate
variants' file `dascore/core/coords.py` is absent from the snapshot; the
spec and its tests require that a selection range that is not exactly two
entries raises `ParameterError`, that a slice-like input carrying a step is
rejected with `ParameterError`, and that a two-entry range is accepted). -/
def get_slice_tuple : SelectArg α → Except PyError (Option α × Option α) := fun arg =>
  match arg with
  | .tup l => if l.length = 2 then .ok (l.getD 0 none, l.getD 1 none) else .error .parameterError
  | .sli st sp none => .ok (st, sp)
  | .sli _ _ (some _) => .error .parameterError

/-- Python dict assignment `m[k] = v`, modelled on an association list whose
lookup takes the most recent binding. -/
def dictSet {β : Type} (m : List (String × β)) (k : String) (v : β) : List (String × β) :=
  (k, v) :: m

/-- Python dict lookup `m.get(k)`. -/
def dictGet {β : Type} (m : List (String × β)) (k : String) : Option β :=
  (m.find? (fun kv => decide (kv.1 = k))).map (fun kv => kv.2)

/-- The per-coordinate summary read by `PatchAttrs.new`: `coord.min`,
`coord.max`, `coord.step` and `coord.units` (attribute values are kept
abstract in `β`). -/
structure CoordSummary (β : Type) where
  min : β
  max : β
  step : β
  units : β

/-- Embedding of `PatchAttrs.new(args, coord_manager)` from
`src/dascore/core/schema.py` lines 114-123 in the case `coord_manager` is
given and `args` is a plain mapping: `out = dict(args)`, then for every
dimension `name` the keys `{name}_min`, `{name}_max`, `d_{name}` and
`{name}_units` are assigned from that dimension's coordinate (the final
pydantic construction keeps all keys, `extra = "allow"`). -/
def PatchAttrs.new {β : Type} (args : List (String × β)) (dims : List String)
    (coord_map : String → CoordSummary β) : List (String × β) :=
  dims.foldl (fun out name =>
    dictSet (dictSet (dictSet (dictSet out (name ++ "_min") (coord_map name).min)
      (name ++ "_max") (coord_map name).max)
      ("d_" ++ name) (coord_map name).step)
      (name ++ "_units") (coord_map name).units) args

/-- The dimension-derived attribute keys written by `PatchAttrs.new`. -/
def derivedKeys (dims : List String) : List String :=
  dims.flatMap (fun n => [n ++ "_min", n ++ "_max", "d_" ++ n, n ++ "_units"])

/-- A NumPy array as far as write protection is concerned: payload plus the
`WRITEABLE` flag. -/
structure NpArray where
  data : List ℚ
  writeable : Bool
deriving Repr, DecidableEq

/-- Embedding of `array(array)` from `src/dascore/compat.py`:
`array.setflags(write=False); return array`. -/
def array (a : NpArray) : NpArray :=
  { a with writeable := false }

/-- NumPy `a[i] = x`: in-place assignment succeeds only on a writeable
array, otherwise it raises `ValueError`. -/
def NpArray.setitem (a : NpArray) (i : Nat) (x : ℚ) : Except String NpArray :=
  if a.writeable then .ok { a with data := a.data.set i x }
  else .error "ValueError: assignment destination is read-only"

/-- The data array stored by `Patch.__init__`
(`src/dascore/core/patch.py` line 84):
`self._data = array(self.coords.validate_data(data))`, where
`validate_data` (in the absent `coordmanager.py`) returns the array itself
after a shape check. -/
def Patch_stored_data (validated : NpArray) : NpArray :=
  array validated

/-- Coordinate manager reduced to what `Patch.equals` consults: the ordered
dimension names and the named coordinate arrays. -/
structure CoordManagerM where
  dims : List String
  coord_map : List (String × List ℚ)
deriving Repr, DecidableEq

/-- Modelled from the spec: CoordManager equality (`coordmanager.py` is
absent from the snapshot; spec section 4.2: equal iff same `dims` order,
same set of coordinate names, and every coordinate compares equal). -/
def cm_equals (a b : CoordManagerM) : Bool :=
  decide (a.dims = b.dims)
  && (a.coord_map.all fun kv => decide (dictGet b.coord_map kv.1 = some kv.2))
  && (b.coord_map.all fun kv => decide (dictGet a.coord_map kv.1 = some kv.2))

/-- A Patch reduced to what `Patch.equals` consults: a 2-D data array
(row-major, axis 0 first), its coordinate manager, and the compared
attributes (values abstracted to rationals; the NaN escape hatch of the
attribute comparison has no rational inhabitant and is dropped). -/
structure PatchM where
  data : List (List ℚ)
  cm : CoordManagerM
  attrs : List (String × ℚ)
deriving Repr, DecidableEq

/-- Equality of attribute dictionaries: same keys, equal values. -/
def dict_eqb (a b : List (String × ℚ)) : Bool :=
  (a.all fun kv => decide (dictGet b kv.1 = some kv.2))
  && (b.all fun kv => decide (dictGet a kv.1 = some kv.2))

/-- Set equality of name lists, as `set(self.dims) == set(other.dims)`. -/
def listSetEqb (a b : List String) : Bool :=
  (a.all fun x => decide (x ∈ b)) && (b.all fun x => decide (x ∈ a))

/-- Modelled from the spec: `Patch.transpose` (the `dascore.proc` transpose
is absent from the snapshot; spec section 4.2: `new_dims` must be a
permutation of the dims; the array axes are reordered accordingly), for the
two-dimensional case: reversing the dims transposes the data matrix. -/
def patch_transpose (p : PatchM) (new_dims : List String) : PatchM :=
  if new_dims = p.cm.dims then p
  else { data := p.data.transpose,
         cm := { dims := new_dims, coord_map := p.cm.coord_map },
         attrs := p.attrs }

/-- Embedding of `Patch.equals` from `src/dascore/core/patch.py` lines
136-161: compare attributes, then coordinate managers, then -- when the
dims orders differ but contain the same names -- transpose `other` into
`self`'s dims order before comparing the data arrays. -/
def Patch_equals (p o : PatchM) : Bool :=
  dict_eqb p.attrs o.attrs
  && cm_equals p.cm o.cm
  && decide (p.data =
      (if p.cm.dims ≠ o.cm.dims ∧ listSetEqb p.cm.dims o.cm.dims = true
       then patch_transpose o p.cm.dims else o).data)

/-- A concrete 2x2 patch with dims `(time, distance)`. -/
def patchA : PatchM :=
  { data := [[1, 2], [3, 4]],
    cm := { dims := ["time", "distance"],
            coord_map := [("time", [0, 1]), ("distance", [10, 20])] },
    attrs := [("tag", 7)] }

/-- The same patch transposed to dims `(distance, time)`. -/
def patchA_T : PatchM :=
  patch_transpose patchA ["distance", "time"]

/-- A list counts `k` elements satisfying `p` whenever `p` holds at exactly
the positions below `k`. -/
theorem countP_eq_of_forall_split (p : α → Bool) :
    ∀ (v : List α) (k : Nat), k ≤ v.length →
      (∀ i, i < k → p (v.getD i 0) = true) →
      (∀ i, k ≤ i → i < v.length → p (v.getD i 0) = false) →
      v.countP p = k := by
  intro v
  induction v with
  | nil =>
    intro k hk _ _
    simp only [List.length_nil, Nat.le_zero] at hk
    simp [hk]
  | cons x xs ih =>
    intro k hk h1 h2
    cases k with
    | zero =>
      have hx : p x = false := by
        have := h2 0 (Nat.le_refl 0) (by simp)
        simpa using this
      have hxs : xs.countP p = 0 := by
        apply ih 0 (Nat.zero_le _) (by intro i hi; omega)
        intro i _ hi
        have := h2 (i + 1) (Nat.zero_le _) (by simpa using Nat.succ_lt_succ hi)
        simpa using this
      simp [List.countP_cons, hx, hxs]
    | succ j =>
      have hx : p x = true := by
        have := h1 0 (Nat.succ_pos j)
        simpa using this
      have hxs : xs.countP p = j := by
        apply ih j (by simpa using hk)
        · intro i hi
          have := h1 (i + 1) (Nat.succ_lt_succ hi)
          simpa using this
        · intro i hji hi
          have := h2 (i + 1) (Nat.succ_le_succ hji) (by simpa using Nat.succ_lt_succ hi)
          simpa using this
      simp [List.countP_cons, hx, hxs]

/-- In a sorted list, a predicate that is downward closed along the order
holds at exactly the positions below `countP`. -/
theorem lt_countP_iff_of_sorted (p : α → Bool)
    (hp : ∀ a b : α, a ≤ b → p b = true → p a = true) :
    ∀ (v : List α), v.Pairwise (· ≤ ·) →
      ∀ i, i < v.length → (i < v.countP p ↔ p (v.getD i 0) = true) := by
  intro v
  induction v with
  | nil => intro _ i hi; simp at hi
  | cons x xs ih =>
    intro hs i hi
    obtain ⟨hx_le, hxs⟩ := List.pairwise_cons.mp hs
    by_cases hpx : p x = true
    · rw [List.countP_cons, hpx, if_pos rfl]
      cases i with
      | zero => simp [hpx]
      | succ j =>
        have hj : j < xs.length := by simpa using hi
        rw [List.getD_cons_succ]
        rw [show j + 1 < xs.countP p + 1 ↔ j < xs.countP p from by omega]
        exact ih hxs j hj
    · have hpx' : p x = false := by simpa using hpx
      have hall : (x :: xs).countP p = 0 := by
        rw [List.countP_eq_zero]
        intro a ha
        rcases List.mem_cons.mp ha with rfl | ha
        · simp [hpx']
        · intro hpa
          exact hpx (hp x a (hx_le a ha) hpa)
      rw [hall]
      cases i with
      | zero => simp [hpx']
      | succ j =>
        have hj : j < xs.length := by simpa using hi
        rw [List.getD_cons_succ]
        simp only [Nat.not_lt_zero, false_iff]
        intro hpa
        have hmem : xs.getD j 0 ∈ xs := by
          rw [List.getD_eq_getElem xs 0 hj]
          exact List.getElem_mem hj
        exact hpx (hp x (xs.getD j 0) (hx_le _ hmem) hpa)

/-- Sortedness transported to the `getD` view used by the searchsorted
embedding. -/
theorem pairwise_le_getD (v : List α) (hs : v.Pairwise (· ≤ ·)) :
    ∀ i j, i ≤ j → j < v.length → v.getD i 0 ≤ v.getD j 0 := by
  intro i j hij hj
  rcases Nat.eq_or_lt_of_le hij with rfl | hlt
  · exact le_refl _
  · have hi : i < v.length := Nat.lt_trans hlt hj
    rw [List.getD_eq_getElem v 0 hi, List.getD_eq_getElem v 0 hj]
    exact List.pairwise_iff_getElem.mp hs i j hi hj hlt

/-- The binary-search loop of `searchsorted` computes `countP p` on a sorted
array, for any predicate `p` that is downward closed along the order. -/
theorem bsearchAux_eq_countP (p : α → Bool) (v : List α)
    (hp : ∀ a b : α, a ≤ b → p b = true → p a = true)
    (hs : v.Pairwise (· ≤ ·)) :
    ∀ fuel lo hi, lo ≤ hi → hi ≤ v.length → hi - lo ≤ fuel →
      (∀ i, i < lo → p (v.getD i 0) = true) →
      (∀ i, hi ≤ i → i < v.length → p (v.getD i 0) = false) →
      bsearchAux p v fuel lo hi = v.countP p := by
  intro fuel
  induction fuel with
  | zero =>
    intro lo hi h1 h2 h3 h4 h5
    have hlohi : lo = hi := by omega
    subst hlohi
    rw [bsearchAux]
    exact (countP_eq_of_forall_split p v lo (by omega) h4 (fun i hi' => h5 i hi')).symm
  | succ fuel ih =>
    intro lo hi hlohi hhi hfuel hlow hhigh
    rw [bsearchAux]
    by_cases hlt : lo < hi
    · rw [if_pos hlt]
      simp only []
      have hmid1 : lo ≤ (lo + hi) / 2 := by omega
      have hmid2 : (lo + hi) / 2 < hi := by omega
      by_cases hpm : p (v.getD ((lo + hi) / 2) 0) = true
      · rw [if_pos hpm]
        apply ih ((lo + hi) / 2 + 1) hi (by omega) hhi (by omega) ?_ hhigh
        intro i hi'
        exact hp _ _ (pairwise_le_getD v hs i ((lo + hi) / 2) (by omega) (by omega)) hpm
      · rw [if_neg hpm]
        apply ih lo ((lo + hi) / 2) (by omega) (by omega) (by omega) hlow
        intro i hi' hilen
        by_cases hpi : p (v.getD i 0) = true
        · exact absurd (hp _ _ (pairwise_le_getD v hs ((lo + hi) / 2) i hi' hilen) hpi) hpm
        · simpa using hpi
    · rw [if_neg hlt]
      have hlohi' : lo = hi := by omega
      subst hlohi'
      exact (countP_eq_of_forall_split p v lo (by omega) hlow (fun i hi' => hhigh i hi')).symm

/-- On a sorted array, `searchsorted(v, x, side="left")` counts the elements
strictly below `x`. -/
theorem bisectLeft_eq_countP (v : List α) (x : α) (hs : v.Pairwise (· ≤ ·)) :
    bisectLeft v x = v.countP (fun a => decide (a < x)) := by
  apply bsearchAux_eq_countP _ v ?_ hs v.length 0 v.length (Nat.zero_le _) (le_refl _)
    (by omega) (by intro i hi; omega) (by intro i hi hilen; omega)
  intro a b hab h
  exact decide_eq_true (lt_of_le_of_lt hab (of_decide_eq_true h))

/-- On a sorted array, `searchsorted(v, x, side="right")` counts the elements
at most `x`. -/
theorem bisectRight_eq_countP (v : List α) (x : α) (hs : v.Pairwise (· ≤ ·)) :
    bisectRight v x = v.countP (fun a => decide (a ≤ x)) := by
  apply bsearchAux_eq_countP _ v ?_ hs v.length 0 v.length (Nat.zero_le _) (le_refl _)
    (by omega) (by intro i hi; omega) (by intro i hi hilen; omega)
  intro a b hab h
  exact decide_eq_true (le_trans hab (of_decide_eq_true h))

/-- Pointwise meaning of the left insertion index on a sorted array:
position `i` lies at or after it exactly when `x ≤ v[i]`. -/
theorem bisectLeft_le_iff (v : List α) (x : α) (hs : v.Pairwise (· ≤ ·))
    (i : Nat) (hi : i < v.length) :
    bisectLeft v x ≤ i ↔ x ≤ v.getD i 0 := by
  rw [bisectLeft_eq_countP v x hs]
  have h := lt_countP_iff_of_sorted (fun a => decide (a < x))
    (fun a b hab hb => decide_eq_true (lt_of_le_of_lt hab (of_decide_eq_true hb))) v hs i hi
  constructor
  · intro hle
    have : ¬ (i < v.countP (fun a => decide (a < x))) := by omega
    have := mt h.mpr this
    simpa using this
  · intro hxle
    by_contra hcon
    have := h.mp (by omega)
    have := of_decide_eq_true this
    exact absurd hxle (not_le.mpr this)

/-- Pointwise meaning of the right insertion index on a sorted array:
position `i` lies strictly before it exactly when `v[i] ≤ x`. -/
theorem lt_bisectRight_iff (v : List α) (x : α) (hs : v.Pairwise (· ≤ ·))
    (i : Nat) (hi : i < v.length) :
    i < bisectRight v x ↔ v.getD i 0 ≤ x := by
  rw [bisectRight_eq_countP v x hs]
  have h := lt_countP_iff_of_sorted (fun a => decide (a ≤ x))
    (fun a b hab hb => decide_eq_true (le_trans hab (of_decide_eq_true hb))) v hs i hi
  constructor
  · intro hlt
    exact of_decide_eq_true (h.mp hlt)
  · intro hle
    exact h.mpr (decide_eq_true hle)

/-- On an array whose first element is strictly below its last (in particular
any strictly increasing array with at least two entries), the zero-padded-end
branch is skipped and `get_slice_from_monotonic` returns the normalized
searchsorted slice. -/
theorem gsfm_increasing (v : List α) (c0 c1 : Option α) (h2 : 2 ≤ v.length)
    (hlt : v.getD 0 0 < v.getD (v.length - 1) 0) :
    get_slice_from_monotonic v (some [c0, c1]) = .ok ⟨normStart v c0, normStop v c1⟩ := by
  rw [get_slice_from_monotonic]
  rw [if_pos (by simp)]
  show getSliceAux v c0 c1 (v.length + 1) = _
  rw [getSliceAux]
  rw [if_neg (by omega)]
  rw [if_neg (not_le.mpr hlt)]

/-- A strictly increasing array with at least two entries has its first
element strictly below its last. -/
theorem strict_getD_head_lt_last (v : List α) (hs : v.Pairwise (· < ·))
    (h2 : 2 ≤ v.length) : v.getD 0 0 < v.getD (v.length - 1) 0 := by
  have h0 : 0 < v.length := by omega
  have hn : v.length - 1 < v.length := by omega
  rw [List.getD_eq_getElem v 0 h0, List.getD_eq_getElem v 0 hn]
  exact List.pairwise_iff_getElem.mp hs 0 (v.length - 1) h0 hn (by omega)

/-- The first element of a sorted array bounds every element from below. -/
theorem sorted_getD_head_le (v : List α) (hle : v.Pairwise (· ≤ ·)) :
    ∀ a ∈ v, v.getD 0 0 ≤ a := by
  intro a ha
  obtain ⟨i, hilen, rfl⟩ := List.mem_iff_getElem.mp ha
  rw [← List.getD_eq_getElem v 0 hilen]
  exact pairwise_le_getD v hle 0 i (Nat.zero_le _) hilen

/-- The last element of a sorted array bounds every element from above. -/
theorem sorted_getD_le_last (v : List α) (hle : v.Pairwise (· ≤ ·)) :
    ∀ a ∈ v, a ≤ v.getD (v.length - 1) 0 := by
  intro a ha
  obtain ⟨i, hilen, rfl⟩ := List.mem_iff_getElem.mp ha
  rw [← List.getD_eq_getElem v 0 hilen]
  exact pairwise_le_getD v hle i (v.length - 1) (by omega) (by omega)

/-- Full behaviour of `get_slice_from_monotonic` on a strictly increasing
array of length at least two with both bounds given: it succeeds, the slice
denotes the searchsorted pair, and it selects exactly the positions whose
value lies inclusively between the bounds. -/
theorem gsfm_strict_spec (v : List α) (lo hi : α) (hs : v.Pairwise (· < ·))
    (h2 : 2 ≤ v.length) :
    get_slice_from_monotonic v (some [some lo, some hi]) =
      .ok ⟨normStart v (some lo), normStop v (some hi)⟩
    ∧ (normStart v (some lo)).getD 0 = bisectLeft v lo
    ∧ (normStop v (some hi)).getD v.length = bisectRight v hi
    ∧ ∀ i, (NpSlice.mk (normStart v (some lo)) (normStop v (some hi))).selects v.length i ↔
        i < v.length ∧ lo ≤ v.getD i 0 ∧ v.getD i 0 ≤ hi := by
  have hle : v.Pairwise (· ≤ ·) := hs.imp le_of_lt
  have hstart : (normStart v (some lo)).getD 0 = bisectLeft v lo := by
    rw [normStart]
    by_cases h : bisectLeft v lo = 0
    · simp [h]
    · simp [h]
  have hstop : (normStop v (some hi)).getD v.length = bisectRight v hi := by
    rw [normStop]
    by_cases h : bisectRight v hi = v.length
    · simp [h]
    · simp [h]
  have hbr_le : bisectRight v hi ≤ v.length := by
    rw [bisectRight_eq_countP v hi hle]
    exact List.countP_le_length _
  refine ⟨gsfm_increasing v _ _ h2 (strict_getD_head_lt_last v hs h2), hstart, hstop, ?_⟩
  intro i
  rw [NpSlice.selects]
  simp only [hstart, hstop]
  rw [Nat.min_eq_left hbr_le]
  constructor
  · rintro ⟨h1, h2'⟩
    have hin : i < v.length := lt_of_lt_of_le h2' hbr_le
    exact ⟨hin, (bisectLeft_le_iff v lo hle i hin).mp h1,
      (lt_bisectRight_iff v hi hle i hin).mp h2'⟩
  · rintro ⟨hin, h1, h2'⟩
    exact ⟨(bisectLeft_le_iff v lo hle i hin).mpr h1,
      (lt_bisectRight_iff v hi hle i hin).mpr h2'⟩

/-- C1: On a strictly increasing coordinate array of length at least two,
select with both bounds given computes
`start_index = searchsorted(values, lo, side="left")` and
`stop_index = searchsorted(values, hi, side="right")` and returns the
indexer `slice(start_index, stop_index)` (a side equal to `0` resp.
`len(values)` is stored as `None`, denoting the same index), so that
exactly the positions `i` with `lo <= values[i] <= hi` are selected,
inclusive on both bounds; a null bound leaves that side of the slice
unbounded. -/
theorem claim_C1_select_searchsorted_inclusive (v : List α) (lo hi : α)
    (hs : v.Pairwise (· < ·)) (h2 : 2 ≤ v.length) :
    (∃ s, get_slice_from_monotonic v (some [some lo, some hi]) = .ok s
      ∧ s.start.getD 0 = bisectLeft v lo
      ∧ s.stop.getD v.length = bisectRight v hi
      ∧ ∀ i, s.selects v.length i ↔ i < v.length ∧ lo ≤ v.getD i 0 ∧ v.getD i 0 ≤ hi)
    ∧ (∃ s, get_slice_from_monotonic v (some [none, some hi]) = .ok s ∧ s.start = none)
    ∧ (∃ s, get_slice_from_monotonic v (some [some lo, none]) = .ok s ∧ s.stop = none) := by
  obtain ⟨hok, hst, hsp, hsel⟩ := gsfm_strict_spec v lo hi hs h2
  have hlt := strict_getD_head_lt_last v hs h2
  exact ⟨⟨_, hok, hst, hsp, hsel⟩,
    ⟨_, gsfm_increasing v none (some hi) h2 hlt, rfl⟩,
    ⟨_, gsfm_increasing v (some lo) none h2 hlt, rfl⟩⟩

/-- Witness for C1: the strictly increasing array `[0, 1, 2, 3]` over `ℤ`
with bounds `(1, 2)`. -/
theorem claim_C1_witness :
    (∃ s, get_slice_from_monotonic ([0, 1, 2, 3] : List ℤ) (some [some 1, some 2]) = .ok s
      ∧ s.start.getD 0 = bisectLeft ([0, 1, 2, 3] : List ℤ) 1
      ∧ s.stop.getD ([0, 1, 2, 3] : List ℤ).length = bisectRight ([0, 1, 2, 3] : List ℤ) 2
      ∧ ∀ i, s.selects ([0, 1, 2, 3] : List ℤ).length i ↔
          i < ([0, 1, 2, 3] : List ℤ).length
          ∧ 1 ≤ ([0, 1, 2, 3] : List ℤ).getD i 0 ∧ ([0, 1, 2, 3] : List ℤ).getD i 0 ≤ 2)
    ∧ (∃ s, get_slice_from_monotonic ([0, 1, 2, 3] : List ℤ) (some [none, some 2]) = .ok s
        ∧ s.start = none)
    ∧ (∃ s, get_slice_from_monotonic ([0, 1, 2, 3] : List ℤ) (some [some 1, none]) = .ok s
        ∧ s.stop = none) :=
  claim_C1_select_searchsorted_inclusive ([0, 1, 2, 3] : List ℤ) 1 2 (by decide) (by decide)

/-- C2: On a strictly increasing coordinate array of length at least two, a
two-element range matching no element (both bounds below the minimum, both
above the maximum, or `lo > hi`) makes select succeed (never raise) with an
indexer selecting zero elements. -/
theorem claim_C2_empty_range_selects_nothing (v : List α) (lo hi : α)
    (hs : v.Pairwise (· < ·)) (h2 : 2 ≤ v.length)
    (hempty : (lo < v.getD 0 0 ∧ hi < v.getD 0 0) ∨
      (v.getD (v.length - 1) 0 < lo ∧ v.getD (v.length - 1) 0 < hi) ∨ hi < lo) :
    ∃ s, get_slice_from_monotonic v (some [some lo, some hi]) = .ok s
      ∧ ∀ i, ¬ s.selects v.length i := by
  obtain ⟨hok, -, -, hsel⟩ := gsfm_strict_spec v lo hi hs h2
  have hle : v.Pairwise (· ≤ ·) := hs.imp le_of_lt
  refine ⟨_, hok, ?_⟩
  intro i hsel_i
  obtain ⟨hin, hlo, hhi⟩ := (hsel i).mp hsel_i
  have h0le : v.getD 0 0 ≤ v.getD i 0 := pairwise_le_getD v hle 0 i (Nat.zero_le _) hin
  have hlast : v.getD i 0 ≤ v.getD (v.length - 1) 0 :=
    pairwise_le_getD v hle i (v.length - 1) (by omega) (by omega)
  rcases hempty with ⟨-, h1⟩ | ⟨h1, -⟩ | h1
  · exact lt_irrefl _ (lt_of_le_of_lt hhi (lt_of_lt_of_le h1 h0le))
  · exact lt_irrefl _ (lt_of_le_of_lt hlast (lt_of_lt_of_le h1 hlo))
  · exact lt_irrefl _ (lt_of_le_of_lt (le_trans hlo hhi) h1)

/-- Witness for C2: `[0, 1, 2, 3]` over `ℤ` with the out-of-range-above
bounds `(10, 20)`. -/
theorem claim_C2_witness :
    ∃ s, get_slice_from_monotonic ([0, 1, 2, 3] : List ℤ) (some [some 10, some 20]) = .ok s
      ∧ ∀ i, ¬ s.selects ([0, 1, 2, 3] : List ℤ).length i :=
  claim_C2_empty_range_selects_nothing ([0, 1, 2, 3] : List ℤ) 10 20 (by decide) (by decide)
    (by decide)

/-- C3 counterexample: the nonempty strictly increasing coordinate `[5]`
(length one) makes full-range selection `(min, max) = (5, 5)` raise
(`np.argmin` of the empty difference array) instead of returning the
identity slice. -/
theorem claim_C3_counterexample :
    get_slice_from_monotonic ([5] : List ℤ) (some [some 5, some 5]) =
      .error "ValueError: argmin of an empty sequence" := by
  decide

/-- C3 (amended): for every strictly increasing coordinate with at least two
entries, selecting the exact full range `(min, max)` is the identity: the
indexer is the full-covering `slice(None, None)` (start index `0` and stop
index `len` are both normalized to `None`), selecting every position.  (On
length-one coordinates the helper raises instead.) -/
theorem claim_C3_full_range_identity (v : List α) (hs : v.Pairwise (· < ·))
    (h2 : 2 ≤ v.length) :
    get_slice_from_monotonic v
        (some [some (v.getD 0 0), some (v.getD (v.length - 1) 0)]) = .ok ⟨none, none⟩
    ∧ ∀ i, (NpSlice.mk none none).selects v.length i ↔ i < v.length := by
  have hle : v.Pairwise (· ≤ ·) := hs.imp le_of_lt
  have hlt := strict_getD_head_lt_last v hs h2
  have hbl : bisectLeft v (v.getD 0 0) = 0 := by
    rw [bisectLeft_eq_countP _ _ hle, List.countP_eq_zero]
    intro a ha h
    exact absurd (sorted_getD_head_le v hle a ha) (not_le.mpr (of_decide_eq_true h))
  have hbr : bisectRight v (v.getD (v.length - 1) 0) = v.length := by
    rw [bisectRight_eq_countP _ _ hle, List.countP_eq_length]
    intro a ha
    exact decide_eq_true (sorted_getD_le_last v hle a ha)
  constructor
  · rw [gsfm_increasing v _ _ h2 hlt]
    simp only [normStart, normStop]
    rw [hbl, hbr]
    simp
  · intro i
    simp [NpSlice.selects]

/-- Witness for C3 (amended): the strictly increasing array `[0, 1, 2]`
over `ℤ`. -/
theorem claim_C3_witness :
    get_slice_from_monotonic ([0, 1, 2] : List ℤ)
        (some [some (([0, 1, 2] : List ℤ).getD 0 0),
               some (([0, 1, 2] : List ℤ).getD (([0, 1, 2] : List ℤ).length - 1) 0)]) =
      .ok ⟨none, none⟩
    ∧ ∀ i, (NpSlice.mk none none).selects ([0, 1, 2] : List ℤ).length i ↔
        i < ([0, 1, 2] : List ℤ).length :=
  claim_C3_full_range_identity ([0, 1, 2] : List ℤ) (by decide) (by decide)

/-- C9 counterexample: `[1, 2, 3, 0, 0]` has its last element at most its
first, yet `get_slice_from_monotonic` with the non-null condition `(1, 3)`
returns a slice instead of raising, so the helper is not partial on all such
arrays. -/
theorem claim_C9_counterexample :
    (([1, 2, 3, 0, 0] : List ℤ).getD (([1, 2, 3, 0, 0] : List ℤ).length - 1) 0 ≤
      ([1, 2, 3, 0, 0] : List ℤ).getD 0 0)
    ∧ get_slice_from_monotonic ([1, 2, 3, 0, 0] : List ℤ) (some [some 1, some 3]) =
        .ok ⟨none, some 2⟩ := by
  decide

/-- C9 (amended): with a two-element non-null condition, the helper raises on
every length-one array (argmin of an empty difference array) and on every
length-two array whose last element is at most its first (the recursion
reaches an empty array and indexing it raises); it is total on arrays of
length at least two whose last element strictly exceeds the first.  It is
not total *only* there: some longer zero-padded arrays with last <= first
also return normally (see the counterexample). -/
theorem claim_C9_partiality (q a b lo hi : α) :
    get_slice_from_monotonic [q] (some [some lo, some hi]) =
      .error "ValueError: argmin of an empty sequence"
    ∧ (b ≤ a → get_slice_from_monotonic [a, b] (some [some lo, some hi]) =
        .error "IndexError")
    ∧ (∀ (v : List α) (c0 c1 : Option α), 2 ≤ v.length →
        v.getD 0 0 < v.getD (v.length - 1) 0 →
        ∃ s, get_slice_from_monotonic v (some [c0, c1]) = .ok s) := by
  refine ⟨?_, ?_, ?_⟩
  · simp [get_slice_from_monotonic, getSliceAux, npDiff]
  · intro hba
    simp [get_slice_from_monotonic, getSliceAux, npDiff, argminIdx, hba]
  · intro v c0 c1 h2 hlt
    exact ⟨_, gsfm_increasing v c0 c1 h2 hlt⟩

/-- Witness for C9 (amended) at `q = 7`, `(a, b) = (3, 1)`, bounds `(0, 1)`
over `ℤ`, and the increasing array `[0, 5]` for the totality part. -/
theorem claim_C9_witness :
    (get_slice_from_monotonic ([7] : List ℤ) (some [some 0, some 1]) =
      .error "ValueError: argmin of an empty sequence")
    ∧ (get_slice_from_monotonic ([3, 1] : List ℤ) (some [some 0, some 1]) =
        .error "IndexError")
    ∧ (∃ s, get_slice_from_monotonic ([0, 5] : List ℤ) (some [some 0, some 1]) = .ok s) :=
  ⟨(claim_C9_partiality (7 : ℤ) 3 1 0 1).1,
   (claim_C9_partiality (7 : ℤ) 3 1 0 1).2.1 (by decide),
   (claim_C9_partiality (7 : ℤ) 3 1 0 1).2.2 [0, 5] (some 0) (some 1) (by decide) (by decide)⟩

/-- Inserting into a list permutes consing onto it. -/
theorem insertSorted_perm (x : α) (l : List α) : (insertSorted x l).Perm (x :: l) := by
  induction l with
  | nil => rfl
  | cons y ys ih =>
    rw [insertSorted]
    by_cases h : x ≤ y
    · rw [if_pos h]
    · rw [if_neg h]
      exact (List.Perm.cons y ih).trans (List.Perm.swap x y ys)

/-- Sorting rearranges: `npSort` permutes its input. -/
theorem npSort_perm (l : List α) : (npSort l).Perm l := by
  induction l with
  | nil => rfl
  | cons x xs ih =>
    rw [npSort, List.foldr_cons]
    exact (insertSorted_perm x _).trans (List.Perm.cons x ih)

/-- Sorting preserves length: `npSort` keeps the length. -/
theorem npSort_length (l : List α) : (npSort l).length = l.length :=
  (npSort_perm l).length_eq

/-- Inserting into a sorted list keeps it sorted. -/
theorem insertSorted_pairwise (x : α) (l : List α) (h : l.Pairwise (· ≤ ·)) :
    (insertSorted x l).Pairwise (· ≤ ·) := by
  induction l with
  | nil => simp [insertSorted]
  | cons y ys ih =>
    obtain ⟨hy, hys⟩ := List.pairwise_cons.mp h
    rw [insertSorted]
    by_cases hxy : x ≤ y
    · rw [if_pos hxy]
      rw [List.pairwise_cons]
      refine ⟨?_, h⟩
      intro a ha
      rcases List.mem_cons.mp ha with rfl | ha
      · exact hxy
      · exact le_trans hxy (hy a ha)
    · rw [if_neg hxy]
      rw [List.pairwise_cons]
      refine ⟨?_, ih hys⟩
      intro a ha
      have ha' : a ∈ x :: ys := (insertSorted_perm x ys).mem_iff.mp ha
      rcases List.mem_cons.mp ha' with rfl | ha'
      · exact le_of_lt (not_le.mp hxy)
      · exact hy a ha'

/-- Sorting sorts: `npSort` is ascending. -/
theorem npSort_pairwise (l : List α) : (npSort l).Pairwise (· ≤ ·) := by
  induction l with
  | nil => simp [npSort]
  | cons x xs ih =>
    rw [npSort, List.foldr_cons]
    exact insertSorted_pairwise x _ ih

/-- C4: the evenly-sampled test `all_diffs_close_enough` accepts a nonempty
difference list exactly when every difference is numerically close to the
median of the differences, where close means `np.allclose` at relative
tolerance `rtol = 0.001` (0.1 percent, with NumPy's default absolute
tolerance `1e-8`); the empty list is rejected, and datetime/duration
differences are first cast to integer nanoseconds. -/
theorem claim_C4_evenly_sampled_test (l : List ℚ) (hne : l ≠ []) :
    (all_diffs_close_enough l = true ↔
      ∀ d ∈ l, |d - npMedian l| ≤ 1 / 100000000 + (1 / 1000) * |npMedian l|)
    ∧ all_diffs_close_enough ([] : List ℚ) = false
    ∧ ∀ lz : List ℤ, all_diffs_close_enough_td lz =
        all_diffs_close_enough (lz.map (fun i => (i : ℚ))) := by
  refine ⟨?_, rfl, fun _ => rfl⟩
  rw [all_diffs_close_enough, if_neg (fun h => hne (List.length_eq_zero.mp h))]
  rw [npAllClose, List.all_eq_true]
  simp only [npIsClose, decide_eq_true_eq]

/-- Witness for C4: the constant difference list `[1, 1, 1]`. -/
theorem claim_C4_witness :
    (all_diffs_close_enough [1, 1, 1] = true ↔
      ∀ d ∈ ([1, 1, 1] : List ℚ), |d - npMedian [1, 1, 1]| ≤
        1 / 100000000 + (1 / 1000) * |npMedian [1, 1, 1]|)
    ∧ all_diffs_close_enough ([] : List ℚ) = false
    ∧ ∀ lz : List ℤ, all_diffs_close_enough_td lz =
        all_diffs_close_enough (lz.map (fun i => (i : ℚ))) :=
  claim_C4_evenly_sampled_test [1, 1, 1] (by decide)

/-- C5 counterexample: on the even-length difference list `[1, 3]` the
middle-value helper returns `1`, not the statistical median `2`. -/
theorem claim_C5_counterexample :
    get_middle_value ([1, 3] : List ℚ) = 1 ∧ npMedian [1, 3] = 2
      ∧ get_middle_value ([1, 3] : List ℚ) ≠ npMedian [1, 3] := by
  norm_num [get_middle_value, npMedian, npSort, insertSorted]

/-- C5 (amended): the step helper `get_middle_value` returns the element at
position `floor((n - 1) / 2)` of the sorted differences -- always an element
of the input (preserving dtype).  For odd-length arrays this is the
statistical median; for even-length arrays it is the lower of the two
central values, at most (and in general not equal to) the median. -/
theorem claim_C5_lower_middle (l : List ℚ) (hne : l ≠ []) :
    get_middle_value l ∈ l
    ∧ (l.length % 2 = 1 → get_middle_value l = npMedian l)
    ∧ (l.length % 2 = 0 → get_middle_value l ≤ npMedian l) := by
  have hlen : 0 < l.length := List.length_pos.mpr hne
  have hidx : (l.length - 1) / 2 < (npSort l).length := by
    rw [npSort_length]; omega
  refine ⟨?_, ?_, ?_⟩
  · rw [get_middle_value]
    have hmem : (npSort l).getD ((l.length - 1) / 2) 0 ∈ npSort l := by
      rw [List.getD_eq_getElem _ 0 hidx]
      exact List.getElem_mem hidx
    exact (npSort_perm l).mem_iff.mp hmem
  · intro hodd
    rw [get_middle_value, npMedian, if_pos hodd]
    congr 1
    omega
  · intro heven
    have h2 : 2 ≤ l.length := by omega
    rw [get_middle_value, npMedian, if_neg (by omega)]
    have hk : (l.length - 1) / 2 = l.length / 2 - 1 := by omega
    rw [hk]
    have hle : (npSort l).getD (l.length / 2 - 1) 0 ≤ (npSort l).getD (l.length / 2) 0 := by
      apply pairwise_le_getD _ (npSort_pairwise l) _ _ (by omega)
      rw [npSort_length]; omega
    linarith

/-- Witness for C5 (amended): the difference lists `[1, 3]` (even length)
and, through the same instantiation, membership and the even-length bound. -/
theorem claim_C5_witness :
    get_middle_value ([1, 3] : List ℚ) ∈ ([1, 3] : List ℚ)
    ∧ (([1, 3] : List ℚ).length % 2 = 1 → get_middle_value ([1, 3] : List ℚ) = npMedian [1, 3])
    ∧ (([1, 3] : List ℚ).length % 2 = 0 → get_middle_value ([1, 3] : List ℚ) ≤ npMedian [1, 3]) :=
  claim_C5_lower_middle ([1, 3] : List ℚ) (by decide)

omit [LinearOrderedAddCommGroup α] in
/-- C6: a selection range whose length is not exactly two, or a slice-like
input carrying a step component, makes the select validation raise
`ParameterError` and produce no result; a well-formed two-element range
never triggers this error. -/
theorem claim_C6_select_arity (l : List (Option α)) (st sp : Option α) (stp : α) :
    (l.length ≠ 2 → get_slice_tuple (SelectArg.tup l) = .error .parameterError)
    ∧ get_slice_tuple (SelectArg.sli st sp (some stp)) = .error .parameterError
    ∧ (l.length = 2 → ∃ p, get_slice_tuple (SelectArg.tup l) = .ok p) := by
  refine ⟨?_, rfl, ?_⟩
  · intro h
    simp [get_slice_tuple, h]
  · intro h
    refine ⟨(l.getD 0 none, l.getD 1 none), ?_⟩
    simp only [get_slice_tuple]
    rw [if_pos h]

/-- Witness for C6: a three-entry range and a stepped slice error out, the
two-entry range `(0, 10)` is accepted (over `ℤ`). -/
theorem claim_C6_witness :
    (get_slice_tuple (SelectArg.tup [some (0 : ℤ), some 1, some 2]) = .error .parameterError)
    ∧ (get_slice_tuple (SelectArg.sli (some (0 : ℤ)) (some 10) (some 2)) = .error .parameterError)
    ∧ (∃ p, get_slice_tuple (SelectArg.tup [some (0 : ℤ), some 10]) = .ok p) :=
  ⟨(claim_C6_select_arity [some (0 : ℤ), some 1, some 2] (some 0) (some 10) 2).1 (by decide),
   (claim_C6_select_arity [some (0 : ℤ), some 1, some 2] (some 0) (some 10) 2).2.1,
   (claim_C6_select_arity [some (0 : ℤ), some 10] (some 0) (some 10) 2).2.2 (by decide)⟩

/-- Looking up a key just assigned returns the assigned value. -/
theorem dictGet_set_self {β : Type} (m : List (String × β)) (k : String) (v : β) :
    dictGet (dictSet m k v) k = some v := by
  simp [dictGet, dictSet]

/-- Assignment to a different key does not change a lookup. -/
theorem dictGet_set_ne {β : Type} (m : List (String × β)) (k k' : String) (v : β)
    (h : k' ≠ k) : dictGet (dictSet m k' v) k = dictGet m k := by
  simp [dictGet, dictSet, List.find?_cons, h]

/-- The function `PatchAttrs.new` leaves every key outside the dimension-derived keys
untouched. -/
theorem patchAttrsNew_preserves {β : Type} (coord_map : String → CoordSummary β) :
    ∀ (dims : List String) (args : List (String × β)) (k : String),
      k ∉ derivedKeys dims →
      dictGet (PatchAttrs.new args dims coord_map) k = dictGet args k := by
  intro dims
  induction dims with
  | nil => intro args k _; rfl
  | cons d rest ih =>
    intro args k hk
    have hk' : k ∉ derivedKeys rest ∧ k ≠ d ++ "_min" ∧ k ≠ d ++ "_max"
        ∧ k ≠ "d_" ++ d ∧ k ≠ d ++ "_units" := by
      simp only [derivedKeys, List.flatMap_cons, List.mem_append, List.mem_cons,
        List.not_mem_nil, or_false, not_or] at hk
      refine ⟨?_, hk.1.1, hk.1.2.1, hk.1.2.2.1, hk.1.2.2.2⟩
      intro hmem
      exact hk.2 (by simpa [derivedKeys] using hmem)
    obtain ⟨hrest, h1, h2, h3, h4⟩ := hk'
    have hstep : PatchAttrs.new args (d :: rest) coord_map =
        PatchAttrs.new (dictSet (dictSet (dictSet (dictSet args (d ++ "_min")
          (coord_map d).min) (d ++ "_max") (coord_map d).max)
          ("d_" ++ d) (coord_map d).step)
          (d ++ "_units") (coord_map d).units) rest coord_map := by
      rw [PatchAttrs.new, PatchAttrs.new, List.foldl_cons]
    rw [hstep, ih _ k hrest]
    rw [dictGet_set_ne _ _ _ _ (Ne.symm h4), dictGet_set_ne _ _ _ _ (Ne.symm h3),
      dictGet_set_ne _ _ _ _ (Ne.symm h2), dictGet_set_ne _ _ _ _ (Ne.symm h1)]

/-- The function `PatchAttrs.new` writes each dimension's four derived keys from that
dimension's coordinate, provided the derived keys do not collide. -/
theorem patchAttrsNew_reads {β : Type} (coord_map : String → CoordSummary β) :
    ∀ (dims : List String) (args : List (String × β)),
      (derivedKeys dims).Nodup → ∀ name ∈ dims,
      dictGet (PatchAttrs.new args dims coord_map) (name ++ "_min") = some (coord_map name).min
      ∧ dictGet (PatchAttrs.new args dims coord_map) (name ++ "_max") = some (coord_map name).max
      ∧ dictGet (PatchAttrs.new args dims coord_map) ("d_" ++ name) = some (coord_map name).step
      ∧ dictGet (PatchAttrs.new args dims coord_map) (name ++ "_units") =
          some (coord_map name).units := by
  intro dims
  induction dims with
  | nil => intro args _ name hname; exact absurd hname (List.not_mem_nil name)
  | cons d rest ih =>
    intro args hnodup name hname
    have hd4 : derivedKeys (d :: rest) =
        (d ++ "_min") :: (d ++ "_max") :: ("d_" ++ d) :: (d ++ "_units") :: derivedKeys rest := by
      simp [derivedKeys]
    rw [hd4] at hnodup
    rw [List.nodup_cons] at hnodup
    obtain ⟨hm1, hnodup⟩ := hnodup
    rw [List.nodup_cons] at hnodup
    obtain ⟨hm2, hnodup⟩ := hnodup
    rw [List.nodup_cons] at hnodup
    obtain ⟨hm3, hnodup⟩ := hnodup
    rw [List.nodup_cons] at hnodup
    obtain ⟨hm4, hrestnodup⟩ := hnodup
    simp only [List.mem_cons, not_or] at hm1 hm2 hm3
    have hstep : PatchAttrs.new args (d :: rest) coord_map =
        PatchAttrs.new (dictSet (dictSet (dictSet (dictSet args (d ++ "_min")
          (coord_map d).min) (d ++ "_max") (coord_map d).max)
          ("d_" ++ d) (coord_map d).step)
          (d ++ "_units") (coord_map d).units) rest coord_map := by
      rw [PatchAttrs.new, PatchAttrs.new, List.foldl_cons]
    rcases List.mem_cons.mp hname with rfl | hmem
    · rw [hstep]
      refine ⟨?_, ?_, ?_, ?_⟩
      · rw [patchAttrsNew_preserves coord_map rest _ _ hm1.2.2.2]
        rw [dictGet_set_ne _ _ _ _ (Ne.symm hm1.2.2.1),
          dictGet_set_ne _ _ _ _ (Ne.symm hm1.2.1),
          dictGet_set_ne _ _ _ _ (Ne.symm hm1.1)]
        exact dictGet_set_self _ _ _
      · rw [patchAttrsNew_preserves coord_map rest _ _ hm2.2.2]
        rw [dictGet_set_ne _ _ _ _ (Ne.symm hm2.2.1),
          dictGet_set_ne _ _ _ _ (Ne.symm hm2.1)]
        exact dictGet_set_self _ _ _
      · rw [patchAttrsNew_preserves coord_map rest _ _ hm3.2]
        rw [dictGet_set_ne _ _ _ _ (Ne.symm hm3.1)]
        exact dictGet_set_self _ _ _
      · rw [patchAttrsNew_preserves coord_map rest _ _ hm4]
        exact dictGet_set_self _ _ _
    · rw [hstep]
      exact ih _ hrestnodup name hmem

/-- C7: when compact attributes are emitted from a coordinate manager
(`PatchAttrs.new` with a `coord_manager`), every dimension `d` yields output
keys `d_min`, `d_max`, `d_d` (step) and `d_units` equal to that dimension
coordinate's min, max, step and units, and every key of the prior attribute
mapping that is not dimension-derived keeps its prior value.  (The derived
keys are assumed not to collide, as is the case for ordinary dimension
names.) -/
theorem claim_C7_compact_attrs (β : Type) (args : List (String × β)) (dims : List String)
    (coord_map : String → CoordSummary β) (hnodup : (derivedKeys dims).Nodup) :
    (∀ name ∈ dims,
      dictGet (PatchAttrs.new args dims coord_map) (name ++ "_min") = some (coord_map name).min
      ∧ dictGet (PatchAttrs.new args dims coord_map) (name ++ "_max") = some (coord_map name).max
      ∧ dictGet (PatchAttrs.new args dims coord_map) ("d_" ++ name) = some (coord_map name).step
      ∧ dictGet (PatchAttrs.new args dims coord_map) (name ++ "_units") =
          some (coord_map name).units)
    ∧ ∀ k, k ∉ derivedKeys dims →
        dictGet (PatchAttrs.new args dims coord_map) k = dictGet args k :=
  ⟨patchAttrsNew_reads coord_map dims args hnodup,
   fun k hk => patchAttrsNew_preserves coord_map dims args k hk⟩

/-- Witness for C7: one dimension `time` with summary `(0, 3, 1, 2)` over
prior attributes `{tag: 7}`. -/
theorem claim_C7_witness :
    (∀ name ∈ ["time"],
      dictGet (PatchAttrs.new [("tag", (7 : ℚ))] ["time"] (fun _ => ⟨0, 3, 1, 2⟩))
          (name ++ "_min") = some ((fun _ : String => (⟨0, 3, 1, 2⟩ : CoordSummary ℚ)) name).min
      ∧ dictGet (PatchAttrs.new [("tag", (7 : ℚ))] ["time"] (fun _ => ⟨0, 3, 1, 2⟩))
          (name ++ "_max") = some ((fun _ : String => (⟨0, 3, 1, 2⟩ : CoordSummary ℚ)) name).max
      ∧ dictGet (PatchAttrs.new [("tag", (7 : ℚ))] ["time"] (fun _ => ⟨0, 3, 1, 2⟩))
          ("d_" ++ name) = some ((fun _ : String => (⟨0, 3, 1, 2⟩ : CoordSummary ℚ)) name).step
      ∧ dictGet (PatchAttrs.new [("tag", (7 : ℚ))] ["time"] (fun _ => ⟨0, 3, 1, 2⟩))
          (name ++ "_units") =
          some ((fun _ : String => (⟨0, 3, 1, 2⟩ : CoordSummary ℚ)) name).units)
    ∧ ∀ k, k ∉ derivedKeys ["time"] →
        dictGet (PatchAttrs.new [("tag", (7 : ℚ))] ["time"] (fun _ => ⟨0, 3, 1, 2⟩)) k =
          dictGet [("tag", (7 : ℚ))] k :=
  claim_C7_compact_attrs ℚ [("tag", (7 : ℚ))] ["time"] (fun _ => ⟨0, 3, 1, 2⟩) (by decide)

/-- C8: every array returned by the immutable-array wrapper `array` has its
writeable flag cleared, and in particular the data array stored by a
constructed Patch rejects every subsequent in-place write. -/
theorem claim_C8_read_only_buffers :
    (∀ a : NpArray, (array a).writeable = false)
    ∧ (∀ (a : NpArray) (i : Nat) (x : ℚ),
        (array a).setitem i x = .error "ValueError: assignment destination is read-only")
    ∧ (∀ (d : NpArray) (i : Nat) (x : ℚ),
        (Patch_stored_data d).writeable = false
        ∧ (Patch_stored_data d).setitem i x =
            .error "ValueError: assignment destination is read-only") :=
  ⟨fun _ => rfl, fun _ _ _ => rfl, fun _ _ _ => ⟨rfl, rfl⟩⟩

/-- C10 evidence: a patch and its transposed counterpart (equal data up to
axis order, equal attributes, same coordinates) compare UNEQUAL, because the
coordinate-manager comparison performed before the transposed-dims branch of
`Patch.equals` is sensitive to the dims order (spec section 4.2), so the
branch that would transpose `other` into `self`'s dims order is unreachable
-- contradicting the code's own comment that "patches that are identical but
transposed should still be equal".  The self-comparison conjunct shows the
embedded equality is not trivially false. -/
theorem claim_C10_transpose_equality_bug :
    patchA_T.data = [[1, 3], [2, 4]]
    ∧ patchA_T.cm.dims = ["distance", "time"]
    ∧ dict_eqb patchA.attrs patchA_T.attrs = true
    ∧ cm_equals patchA.cm patchA_T.cm = false
    ∧ Patch_equals patchA patchA = true
    ∧ Patch_equals patchA patchA_T = false := by
  decide

